import Mathlib

/-!
Verification development for the brew-manage dependency-graph tool
(`src/brew-deps-graph.py`).  The Python source is shallowly embedded:
dictionaries become association lists with Python-dict update semantics
(replace in place, append new keys at the end), the recursive tree
printers become fuel-indexed functions returning the sequence of emitted
traversal nodes (`none` only when the fuel is exhausted, which the
termination theorem shows never happens at fuel `graph.length + 1`), and
the formatted output lines are recovered by `render`.
-/

namespace BrewDeps

/-- Status of a node emitted by the tree traversal, per spec §3. -/
inductive NStatus where
  | Found
  | NotFound
  | Circular
deriving DecidableEq

/-- One visited package in one traversal context.  `indent` is the
`prefix` string threaded through `print_tree` in the source; `childCount`
is the length of the followed edge list (`dependencies` forward,
`required_by` reverse); `version` is the package's version string
(empty for a not-found node, matching the source's `version_str = ""`). -/
structure TNode where
  name : String
  version : String
  depth : Nat
  isLast : Bool
  status : NStatus
  childCount : Nat
  indent : String
deriving DecidableEq

/-- The per-package record stored in the graph dictionary built by
`build_dependency_graph` (src/brew-deps-graph.py lines 51-56). -/
structure PRecord where
  dependencies : List String
  required_by : List String
  description : String
  version : String
deriving DecidableEq

/-- A raw input entry (`formula`): every field optional, mirroring
`formula.get(...)` on a heterogeneous dict. -/
structure Formula where
  name : Option String
  dependencies : Option (List String)
  required_by : Option (List String)
  description : Option String
  version : Option String

/-- The defaulting applied at src/brew-deps-graph.py lines 51-56:
missing lists become `[]`, missing strings become `""`. -/
def normalize_formula (f : Formula) : PRecord :=
  { dependencies := f.dependencies.getD []
    required_by := f.required_by.getD []
    description := f.description.getD ""
    version := f.version.getD "" }

/-- Python dict lookup `d[k]` / `k in d` on an insertion-ordered
association list. -/
def lookupStr (k : String) : List (String × α) → Option α
  | [] => none
  | p :: rest => if p.1 = k then some p.2 else lookupStr k rest

/-- Python dict assignment `d[k] = v`: replace in place if the key is
present (keeping its position), otherwise append at the end. -/
def dictInsert : List (String × PRecord) → String → PRecord → List (String × PRecord)
  | [], k, v => [(k, v)]
  | p :: rest, k, v => if p.1 = k then (k, v) :: rest else p :: dictInsert rest k v

/-- The loop body of `build_dependency_graph`: skip an entry whose name
is missing or empty (`if not name: continue`), otherwise key its
normalized record by the name. -/
def add_formula (graph : List (String × PRecord)) (f : Formula) :
    List (String × PRecord) :=
  match f.name with
  | none => graph
  | some n => if n = "" then graph else dictInsert graph n (normalize_formula f)

/-- `build_dependency_graph` (src/brew-deps-graph.py lines 42-58). -/
def build_dependency_graph (formulas : List Formula) : List (String × PRecord) :=
  formulas.foldl add_formula []

/-- Combine the child branches' emissions; `none` (fuel exhaustion)
propagates. -/
def seqOpt : List (Option (List α)) → Option (List α)
  | [] => some []
  | o :: os =>
    match o with
    | none => none
    | some xs =>
      match seqOpt os with
      | none => none
      | some rest => some (xs ++ rest)

/-- The edge list followed by the traversal: `required_by` for the
reverse tree, `dependencies` for the forward tree. -/
def edgesOf (rev : Bool) (pd : PRecord) : List String :=
  if rev then pd.required_by else pd.dependencies

/-- Pair every list element with its `is_last_dep` flag
(`i == len(dependencies) - 1` in the source). -/
def markLast : List α → List (α × Bool)
  | [] => []
  | [a] => [(a, true)]
  | a :: b :: rest => (a, false) :: markLast (b :: rest)

/-- Fuel-indexed embedding of `print_tree` (rev = false, lines 61-135)
and `print_reverse_tree` (rev = true, lines 138-206), which differ only
in the followed edge list.  Arguments after the fuel mirror the Python
parameters `package, visited, max_depth, current_depth, is_last` and the
`prefix` string.  Emits the pre-order sequence of traversal nodes. -/
def travAux (rev : Bool) (g : List (String × PRecord)) :
    Nat → String → List String → Int → Nat → Bool → String → Option (List TNode)
  | 0 => fun _ _ _ _ _ _ => none
  | fuel + 1 => fun package visited maxDepth currentDepth isLast ind =>
    if 0 ≤ maxDepth ∧ maxDepth ≤ (currentDepth : Int) then some []
    else
      match lookupStr package g with
      | none => some [⟨package, "", currentDepth, isLast, NStatus.NotFound, 0, ind⟩]
      | some pd =>
        if package ∈ visited then
          some [⟨package, pd.version, currentDepth, isLast, NStatus.Circular,
                 (edgesOf rev pd).length, ind⟩]
        else
          let node : TNode :=
            ⟨package, pd.version, currentDepth, isLast, NStatus.Found,
             (edgesOf rev pd).length, ind⟩
          if edgesOf rev pd = [] ∨ ¬ (maxDepth < 0 ∨ (currentDepth : Int) < maxDepth - 1) then
            some [node]
          else
            Option.map (fun rest => node :: rest)
              (seqOpt ((markLast (edgesOf rev pd)).map fun pb =>
                travAux rev g fuel pb.1 (package :: visited) maxDepth
                  (currentDepth + 1) pb.2
                  (ind ++ if isLast then "    " else "│   ")))

/-- Top-level `print_tree(package, graph)` call: empty visited set,
depth 0, `is_last=True`, empty `prefix`; fuel `graph.length + 1`
suffices (proved below). -/
def print_tree (g : List (String × PRecord)) (root : String) (maxDepth : Int) :
    Option (List TNode) :=
  travAux false g (g.length + 1) root [] maxDepth 0 true ""

/-- Top-level `print_reverse_tree` call. -/
def print_reverse_tree (g : List (String × PRecord)) (root : String) (maxDepth : Int) :
    Option (List TNode) :=
  travAux true g (g.length + 1) root [] maxDepth 0 true ""

/-- The spec surface `forwardTree(graph, name, maxDepth)`. -/
def forwardTree (g : List (String × PRecord)) (root : String) (maxDepth : Int) :
    List TNode :=
  (print_tree g root maxDepth).getD []

/-- The spec surface `reverseTree(graph, name, maxDepth)`. -/
def reverseTree (g : List (String × PRecord)) (root : String) (maxDepth : Int) :
    List TNode :=
  (print_reverse_tree g root maxDepth).getD []

/-- The ancestor-flag indentation: one block per ancestor, `"    "` for
a last ancestor level, `"│   "` for a non-last one.  The flag list is
ordered innermost-ancestor first. -/
def indentBlocks : List Bool → String
  | [] => ""
  | b :: bs => indentBlocks bs ++ (if b then "    " else "│   ")

/-- The line printed for a node (colors disabled, as with `--no-color`):
indentation, connector, name, optional version suffix, status/count
annotation — exactly the f-strings at lines 91, 107, 114 (forward) and
164, 177, 187 (reverse). -/
def render (rev : Bool) (showVersions : Bool) (n : TNode) : String :=
  let connector := if n.isLast then "└── " else "├── "
  let versionStr :=
    if showVersions ∧ n.version ≠ "" then " (" ++ n.version ++ ")" else ""
  let annot :=
    match n.status with
    | NStatus.NotFound => " (not found)"
    | NStatus.Circular => " (circular)"
    | NStatus.Found =>
      if 0 < n.childCount then
        (if rev then " [required by " ++ toString n.childCount ++ "]"
         else " [" ++ toString n.childCount ++ " deps]")
      else ""
  n.indent ++ connector ++ n.name ++ versionStr ++ annot

/-- `dep_count[dep] += 1` on a `defaultdict(int)`: increment in place,
new keys appended in first-encounter order. -/
def bump : List (String × Nat) → String → List (String × Nat)
  | [], k => [(k, 1)]
  | p :: rest, k => if p.1 = k then (p.1, p.2 + 1) :: rest else p :: bump rest k

/-- The counting pass of `find_most_depended_on`
(src/brew-deps-graph.py lines 227-231). -/
def dep_count (g : List (String × PRecord)) : List (String × Nat) :=
  g.foldl (fun acc p => p.2.dependencies.foldl bump acc) []

/-- Stable insertion: place `x` before the first element `y` with
`le x y`.  Instantiated so that it reproduces Python's stable
`sorted`. -/
def insertOrd (le : α → α → Prop) [DecidableRel le] (x : α) : List α → List α
  | [] => [x]
  | y :: ys => if le x y then x :: y :: ys else y :: insertOrd le x ys

/-- Stable insertion sort: the embedding of Python's `sorted`. -/
def sortOrd (le : α → α → Prop) [DecidableRel le] : List α → List α
  | [] => []
  | x :: xs => insertOrd le x (sortOrd le xs)

/-- Descending-by-count order used with `key=lambda x: x[1],
reverse=True`; Python's sort is stable, so equal counts keep their
first-encounter order. -/
def countGE (a b : String × Nat) : Prop := b.2 ≤ a.2

instance : DecidableRel countGE := fun a b => inferInstanceAs (Decidable (b.2 ≤ a.2))

/-- `find_most_depended_on` (src/brew-deps-graph.py lines 225-234). -/
def find_most_depended_on (g : List (String × PRecord)) (top_n : Nat) :
    List (String × Nat) :=
  (sortOrd countGE (dep_count g)).take top_n

/-- `find_most_dependencies` (src/brew-deps-graph.py lines 237-241). -/
def find_most_dependencies (g : List (String × PRecord)) (top_n : Nat) :
    List (String × Nat) :=
  (sortOrd countGE (g.map (fun p => (p.1, p.2.dependencies.length)))).take top_n

/-- The `all_deps` set of `find_root_packages`: every name occurring in
some record's `dependencies` list. -/
def all_deps (g : List (String × PRecord)) : List String :=
  (g.map (fun p => p.2.dependencies)).flatten

/-- `find_root_packages` (src/brew-deps-graph.py lines 209-216). -/
def find_root_packages (g : List (String × PRecord)) : List String :=
  sortOrd (· ≤ ·) ((g.map Prod.fst).filter (fun k => ¬ k ∈ all_deps g))

/-- `find_leaf_packages` (src/brew-deps-graph.py lines 219-222). -/
def find_leaf_packages (g : List (String × PRecord)) : List String :=
  sortOrd (· ≤ ·) ((g.filter (fun p => p.2.dependencies = [])).map Prod.fst)

/-- The numbers computed by `print_statistics`
(src/brew-deps-graph.py lines 252-257); the average is taken in `ℚ`
(Python float division, exact here). -/
structure Stats where
  total : Nat
  edges : Nat
  avg : ℚ
  rootCount : Nat
  leafCount : Nat
deriving DecidableEq

/-- `print_statistics` (src/brew-deps-graph.py lines 244-257):
`avg_deps = total_dependencies / total_packages if total_packages > 0
else 0`. -/
def print_statistics (g : List (String × PRecord)) : Stats :=
  let total := g.length
  let edges := (g.map (fun p => p.2.dependencies.length)).sum
  { total := total
    edges := edges
    avg := if 0 < total then (edges : ℚ) / (total : ℚ) else 0
    rootCount := (find_root_packages g).length
    leafCount := (find_leaf_packages g).length }

/-- Raw occurrence count of a name across all `dependencies` lists. -/
def depOcc (g : List (String × PRecord)) (k : String) : Nat :=
  (all_deps g).count k

/-- Number of graph keys not yet on the visited path: the termination
measure of the recursive traversal. -/
def keysNotIn (g : List (String × PRecord)) (vis : List String) : Nat :=
  ((g.map Prod.fst).filter (fun k => decide (¬ k ∈ vis))).length

/-- A record with the given dependencies and no other data. -/
def recOf (deps : List String) : PRecord := ⟨deps, [], "", ""⟩

/-- Scenario graph {A: deps[B,C], B: deps[C], C: deps[]} (spec §8). -/
def gDiamond : List (String × PRecord) :=
  [("A", recOf ["B", "C"]), ("B", recOf ["C"]), ("C", recOf [])]

/-- Scenario graph {A: deps[B], B: deps[A]} (spec §8). -/
def gCycle : List (String × PRecord) :=
  [("A", recOf ["B"]), ("B", recOf ["A"])]

/-- Scenario graph {A: deps[X]} with X absent (spec §8). -/
def gDangling : List (String × PRecord) := [("A", recOf ["X"])]

/-- Scenario graph {A: deps[], B: deps[A]} (spec §8). -/
def gRL : List (String × PRecord) :=
  [("A", recOf []), ("B", recOf ["A"])]

/-- One package with no dependencies. -/
def gLeaf : List (String × PRecord) := [("A", recOf [])]

theorem seqOpt_isSome {l : List (Option (List α))} (h : ∀ o ∈ l, o.isSome) :
    (seqOpt l).isSome := by
  induction l with
  | nil => simp [seqOpt]
  | cons o os ih =>
    have ho := h o (by simp)
    have hos : (seqOpt os).isSome := ih (fun o' ho' => h o' (by simp [ho']))
    obtain ⟨xs, hxs⟩ := Option.isSome_iff_exists.mp ho
    obtain ⟨rest, hrest⟩ := Option.isSome_iff_exists.mp hos
    subst hxs
    simp [seqOpt, hrest]

theorem seqOpt_mem {l : List (Option (List α))} {out : List α} {n : α}
    (h : seqOpt l = some out) (hn : n ∈ out) :
    ∃ xs, some xs ∈ l ∧ n ∈ xs := by
  induction l generalizing out with
  | nil =>
    simp only [seqOpt, Option.some.injEq] at h
    subst h; simp at hn
  | cons o os ih =>
    cases o with
    | none => simp [seqOpt] at h
    | some xs =>
      cases hos : seqOpt os with
      | none => simp [seqOpt, hos] at h
      | some rest =>
        simp only [seqOpt, hos, Option.some.injEq] at h
        subst h
        rcases List.mem_append.mp hn with hx | hr
        · exact ⟨xs, by simp, hx⟩
        · obtain ⟨ys, hys, hny⟩ := ih hos hr
          exact ⟨ys, by simp [hys], hny⟩

theorem lookupStr_mem_keys {g : List (String × α)} {k : String} {v : α}
    (h : lookupStr k g = some v) : k ∈ g.map Prod.fst := by
  induction g with
  | nil => simp [lookupStr] at h
  | cons p rest ih =>
    by_cases hp : p.1 = k
    · simp [hp.symm]
    · simp only [lookupStr, if_neg hp] at h
      simp [ih h]

theorem keysNotIn_cons_lt {g : List (String × PRecord)} {pkg : String}
    {vis : List String} (hmem : pkg ∈ g.map Prod.fst) (hnv : pkg ∉ vis) :
    keysNotIn g (pkg :: vis) < keysNotIn g vis := by
  unfold keysNotIn
  have himp : ∀ x : String,
      (fun k => decide (¬ k ∈ pkg :: vis)) x → (fun k => decide (¬ k ∈ vis)) x := by
    intro x hx
    simp only [decide_eq_true_eq] at hx ⊢
    exact fun hv => hx (by simp [hv])
  generalize g.map Prod.fst = ks at hmem ⊢
  induction ks with
  | nil => simp at hmem
  | cons a ks ih =>
    by_cases ha : a = pkg
    · subst ha
      have h1 : (decide (¬ a ∈ a :: vis)) = false := by simp
      have h2 : (decide (¬ a ∈ vis)) = true := by simpa using hnv
      simp only [List.filter_cons, h1, h2, if_false, if_true, List.length_cons]
      exact Nat.lt_succ_of_le ((List.monotone_filter_right ks himp).length_le)
    · have hmem' : pkg ∈ ks := by
        rcases List.mem_cons.mp hmem with h | h
        · exact absurd h.symm ha
        · exact h
      have heq : (decide (¬ a ∈ pkg :: vis)) = (decide (¬ a ∈ vis)) := by
        by_cases hav : a ∈ vis
        · simp [hav]
        · simp [hav, ha]
      simp only [List.filter_cons, heq]
      by_cases hav : (decide (¬ a ∈ vis)) = true
      · simp only [hav, if_true, List.length_cons]
        exact Nat.succ_lt_succ (ih hmem')
      · simp only [eq_false_of_ne_true hav, if_false]
        exact ih hmem'

theorem travAux_isSome (rev : Bool) (g : List (String × PRecord)) :
    ∀ (fuel : Nat) (pkg : String) (vis : List String) (d : Int) (depth : Nat)
      (last : Bool) (ind : String), keysNotIn g vis < fuel →
      (travAux rev g fuel pkg vis d depth last ind).isSome := by
  intro fuel
  induction fuel with
  | zero =>
    intro pkg vis d depth last ind h
    exact absurd h (Nat.not_lt_zero _)
  | succ fuel ih =>
    intro pkg vis d depth last ind h
    simp only [travAux]
    split
    · simp
    · split
      · simp
      · next pd hl =>
        split
        · simp
        · next hv =>
          split
          · simp
          · rw [Option.isSome_map']
            apply seqOpt_isSome
            intro o ho
            obtain ⟨pb, _, rfl⟩ := List.mem_map.mp ho
            exact ih pb.1 (pkg :: vis) d (depth + 1) pb.2 _
              (lt_of_lt_of_le
                (keysNotIn_cons_lt (lookupStr_mem_keys hl) hv)
                (Nat.lt_succ_iff.mp h))

theorem travAux_mem (rev : Bool) (g : List (String × PRecord)) :
    ∀ (fuel : Nat) (pkg : String) (vis : List String) (d : Int) (depth : Nat)
      (last : Bool) (ind : String) (out : List TNode) (n : TNode),
      travAux rev g fuel pkg vis d depth last ind = some out → n ∈ out →
      depth ≤ n.depth ∧ (0 ≤ d → (n.depth : Int) < d) ∧
      (∀ flags : List Bool, flags.length = depth → ind = indentBlocks flags →
        ∃ fl : List Bool, fl.length = n.depth ∧ n.indent = indentBlocks fl) := by
  intro fuel
  induction fuel with
  | zero =>
    intro pkg vis d depth last ind out n h hn
    simp [travAux] at h
  | succ fuel ih =>
    intro pkg vis d depth last ind out n h hn
    simp only [travAux] at h
    split at h
    · next hcut =>
      rw [Option.some.injEq] at h
      subst h; simp at hn
    · next hcut =>
      have hbound : 0 ≤ d → (depth : Int) < d := by
        intro h0
        by_contra hlt
        exact hcut ⟨h0, le_of_not_lt hlt⟩
      split at h
      · rw [Option.some.injEq] at h
        subst h
        rw [List.mem_singleton] at hn
        subst hn
        exact ⟨le_refl _, hbound, fun flags hlen hind => ⟨flags, hlen.symm ▸ rfl, hind⟩⟩
      · next pd hl =>
        split at h
        · rw [Option.some.injEq] at h
          subst h
          rw [List.mem_singleton] at hn
          subst hn
          exact ⟨le_refl _, hbound, fun flags hlen hind => ⟨flags, hlen.symm ▸ rfl, hind⟩⟩
        · next hv =>
          split at h
          · rw [Option.some.injEq] at h
            subst h
            rw [List.mem_singleton] at hn
            subst hn
            exact ⟨le_refl _, hbound, fun flags hlen hind => ⟨flags, hlen.symm ▸ rfl, hind⟩⟩
          · rw [Option.map_eq_some'] at h
            obtain ⟨rest, hseq, hout⟩ := h
            subst hout
            rcases List.mem_cons.mp hn with hn | hn
            · subst hn
              exact ⟨le_refl _, hbound, fun flags hlen hind => ⟨flags, hlen.symm ▸ rfl, hind⟩⟩
            · obtain ⟨xs, hxsmem, hnxs⟩ := seqOpt_mem hseq hn
              obtain ⟨pb, _, hcall⟩ := List.mem_map.mp hxsmem
              obtain ⟨h1, h2, h3⟩ := ih pb.1 (pkg :: vis) d (depth + 1) pb.2 _ _ n hcall hnxs
              refine ⟨le_trans (Nat.le_succ _) h1, h2, ?_⟩
              intro flags hlen hind
              refine h3 (last :: flags) (by simp [hlen]) ?_
              simp only [indentBlocks, hind]

theorem travAux_neg_eq (rev : Bool) (g : List (String × PRecord)) :
    ∀ (fuel : Nat) (pkg : String) (vis : List String) (d d' : Int),
      d < 0 → d' < 0 → ∀ (depth : Nat) (last : Bool) (ind : String),
      travAux rev g fuel pkg vis d depth last ind =
        travAux rev g fuel pkg vis d' depth last ind := by
  intro fuel
  induction fuel with
  | zero => intro pkg vis d d' hd hd' depth last ind; rfl
  | succ fuel ih =>
    intro pkg vis d d' hd hd' depth last ind
    have hc : ¬ (0 ≤ d ∧ d ≤ (depth : Int)) := fun hh => absurd hh.1 (not_le.mpr hd)
    have hc' : ¬ (0 ≤ d' ∧ d' ≤ (depth : Int)) := fun hh => absurd hh.1 (not_le.mpr hd')
    simp only [travAux, if_neg hc, if_neg hc']
    cases hl : lookupStr pkg g with
    | none => rfl
    | some pd =>
      by_cases hv : pkg ∈ vis
      · simp [hv]
      · have hg : (d < 0 ∨ (depth : Int) < d - 1) := Or.inl hd
        have hg' : (d' < 0 ∨ (depth : Int) < d' - 1) := Or.inl hd'
        simp only [if_neg hv, hg, hg', not_true, or_false]
        by_cases he : edgesOf rev pd = []
        · simp [he]
        · simp only [he, if_false]
          congr 1
          congr 1
          apply List.map_congr_left
          intro pb _
          exact ih pb.1 (pkg :: vis) d d' hd hd' (depth + 1) pb.2 _

theorem travAux_notfound (rev : Bool) (g : List (String × PRecord)) (fuel : Nat)
    (pkg : String) (vis : List String) (d : Int) (depth : Nat) (last : Bool)
    (ind : String) (hl : lookupStr pkg g = none)
    (hcut : ¬ (0 ≤ d ∧ d ≤ (depth : Int))) :
    travAux rev g (fuel + 1) pkg vis d depth last ind =
      some [⟨pkg, "", depth, last, NStatus.NotFound, 0, ind⟩] := by
  simp only [travAux, if_neg hcut, hl]

theorem travAux_circular (rev : Bool) (g : List (String × PRecord)) (fuel : Nat)
    (pkg : String) (vis : List String) (d : Int) (depth : Nat) (last : Bool)
    (ind : String) (pd : PRecord) (hl : lookupStr pkg g = some pd)
    (hcut : ¬ (0 ≤ d ∧ d ≤ (depth : Int))) (hv : pkg ∈ vis) :
    travAux rev g (fuel + 1) pkg vis d depth last ind =
      some [⟨pkg, pd.version, depth, last, NStatus.Circular,
             (edgesOf rev pd).length, ind⟩] := by
  simp only [travAux, if_neg hcut, hl, if_pos hv]

theorem travAux_found_head (rev : Bool) (g : List (String × PRecord)) (fuel : Nat)
    (pkg : String) (vis : List String) (d : Int) (depth : Nat) (last : Bool)
    (ind : String) (pd : PRecord) (hl : lookupStr pkg g = some pd)
    (hcut : ¬ (0 ≤ d ∧ d ≤ (depth : Int))) (hv : pkg ∉ vis) (out : List TNode)
    (h : travAux rev g (fuel + 1) pkg vis d depth last ind = some out) :
    ∃ rest, out = ⟨pkg, pd.version, depth, last, NStatus.Found,
                   (edgesOf rev pd).length, ind⟩ :: rest := by
  simp only [travAux, if_neg hcut, hl, if_neg hv] at h
  split at h
  · rw [Option.some.injEq] at h
    exact ⟨[], h.symm⟩
  · rw [Option.map_eq_some'] at h
    obtain ⟨rest, _, hout⟩ := h
    exact ⟨rest, hout.symm⟩

theorem perm_insertOrd (le : α → α → Prop) [DecidableRel le] (x : α) (l : List α) :
    List.Perm (insertOrd le x l) (x :: l) := by
  induction l with
  | nil => simp [insertOrd]
  | cons y ys ih =>
    by_cases hxy : le x y
    · rw [insertOrd, if_pos hxy]
    · rw [insertOrd, if_neg hxy]
      exact List.Perm.trans (List.Perm.cons y ih) (List.Perm.swap x y ys)

theorem perm_sortOrd (le : α → α → Prop) [DecidableRel le] (l : List α) :
    List.Perm (sortOrd le l) l := by
  induction l with
  | nil => simp [sortOrd]
  | cons x xs ih =>
    exact List.Perm.trans (perm_insertOrd le x (sortOrd le xs)) (List.Perm.cons x ih)

theorem mem_sortOrd (le : α → α → Prop) [DecidableRel le] (a : α) (l : List α) :
    a ∈ sortOrd le l ↔ a ∈ l :=
  (perm_sortOrd le l).mem_iff

theorem pairwise_insertOrd (le : α → α → Prop) [DecidableRel le]
    (htot : ∀ a b, le a b ∨ le b a) (htrans : ∀ a b c, le a b → le b c → le a c)
    (x : α) (l : List α) (h : List.Pairwise le l) :
    List.Pairwise le (insertOrd le x l) := by
  induction l with
  | nil => simp [insertOrd]
  | cons y ys ih =>
    obtain ⟨hy, hys⟩ := List.pairwise_cons.mp h
    by_cases hxy : le x y
    · rw [insertOrd, if_pos hxy]
      refine List.pairwise_cons.mpr ⟨?_, h⟩
      intro z hz
      rcases List.mem_cons.mp hz with hz | hz
      · exact hz ▸ hxy
      · exact htrans x y z hxy (hy z hz)
    · rw [insertOrd, if_neg hxy]
      refine List.pairwise_cons.mpr ⟨?_, ih hys⟩
      intro z hz
      rcases List.mem_cons.mp ((perm_insertOrd le x ys).mem_iff.mp hz) with hz | hz
      · exact hz ▸ (htot x y).resolve_left hxy
      · exact hy z hz

theorem pairwise_sortOrd (le : α → α → Prop) [DecidableRel le]
    (htot : ∀ a b, le a b ∨ le b a) (htrans : ∀ a b c, le a b → le b c → le a c)
    (l : List α) : List.Pairwise le (sortOrd le l) := by
  induction l with
  | nil => simp [sortOrd]
  | cons x xs ih => exact pairwise_insertOrd le htot htrans x (sortOrd le xs) ih

theorem filter_insertOrd_pos (le : α → α → Prop) [DecidableRel le] (p : α → Bool)
    (x : α) (l : List α) (hx : p x = true)
    (hskip : ∀ y, p y = true → le x y) :
    (insertOrd le x l).filter p = x :: l.filter p := by
  induction l with
  | nil => simp [insertOrd, hx]
  | cons y ys ih =>
    by_cases hxy : le x y
    · rw [insertOrd, if_pos hxy, List.filter_cons, List.filter_cons]
      simp [hx]
    · have hpy : p y = false := by
        by_contra hc
        exact hxy (hskip y (by simpa using hc))
      rw [insertOrd, if_neg hxy, List.filter_cons, hpy, List.filter_cons, hpy]
      simpa using ih

theorem filter_insertOrd_neg (le : α → α → Prop) [DecidableRel le] (p : α → Bool)
    (x : α) (l : List α) (hx : p x = false) :
    (insertOrd le x l).filter p = l.filter p := by
  induction l with
  | nil => simp [insertOrd, hx]
  | cons y ys ih =>
    by_cases hxy : le x y
    · rw [insertOrd, if_pos hxy, List.filter_cons, hx]
      simp
    · rw [insertOrd, if_neg hxy, List.filter_cons, List.filter_cons, ih]

theorem filter_sortOrd (le : α → α → Prop) [DecidableRel le] (p : α → Bool)
    (l : List α) (hcompat : ∀ x y, p x = true → p y = true → le x y) :
    (sortOrd le l).filter p = l.filter p := by
  induction l with
  | nil => simp [sortOrd]
  | cons x xs ih =>
    by_cases hx : p x = true
    · rw [sortOrd, filter_insertOrd_pos le p x _ hx (fun y hy => hcompat x y hx hy),
        List.filter_cons, hx, ih]
      simp
    · rw [sortOrd,
        filter_insertOrd_neg le p x _ (by simpa using hx), List.filter_cons,
        eq_false_of_ne_true hx, ih]
      simp

theorem lookupStr_bump (acc : List (String × Nat)) (w k : String) :
    lookupStr k (bump acc w) =
      if k = w then some ((lookupStr w acc).getD 0 + 1) else lookupStr k acc := by
  induction acc with
  | nil =>
    by_cases hk : k = w
    · simp [bump, lookupStr, hk]
    · have hwk : ¬ w = k := fun h => hk h.symm
      simp [bump, lookupStr, hk, hwk]
  | cons p rest ih =>
    by_cases hp : p.1 = w
    · rw [bump, if_pos hp]
      by_cases hk : k = w
      · subst hk
        simp [lookupStr, hp, if_pos hp.symm]
      · have hpk : ¬ p.1 = k := fun h => hk (h.symm.trans hp)
        simp [lookupStr, hk, if_neg hpk]
    · rw [bump, if_neg hp]
      by_cases hk : k = w
      · subst hk
        have hpk : ¬ p.1 = k := hp
        simp [lookupStr, if_neg hpk, ih, if_neg hp]
      · by_cases hpk : p.1 = k
        · simp [lookupStr, if_pos hpk, hk]
        · simp [lookupStr, if_neg hpk, ih, hk]

theorem keys_bump (acc : List (String × Nat)) (w : String) :
    (bump acc w).map Prod.fst =
      if w ∈ acc.map Prod.fst then acc.map Prod.fst else acc.map Prod.fst ++ [w] := by
  induction acc with
  | nil => simp [bump]
  | cons p rest ih =>
    by_cases hp : p.1 = w
    · rw [bump, if_pos hp]
      simp [hp]
    · rw [bump, if_neg hp]
      have hne : ¬ w = p.1 := fun h => hp h.symm
      by_cases hw : w ∈ rest.map Prod.fst
      · simp [ih, hw, hne]
      · simp [ih, hw, hne]

theorem nodup_keys_bump (acc : List (String × Nat)) (w : String)
    (h : (acc.map Prod.fst).Nodup) : ((bump acc w).map Prod.fst).Nodup := by
  rw [keys_bump]
  by_cases hw : w ∈ acc.map Prod.fst
  · simpa [hw] using h
  · rw [if_neg hw]
    simp only [List.nodup_append, List.nodup_cons]
    exact ⟨h, by simp, by simpa [List.disjoint_singleton] using hw⟩

theorem mem_keys_bump (acc : List (String × Nat)) (w k : String) :
    k ∈ (bump acc w).map Prod.fst ↔ k ∈ acc.map Prod.fst ∨ k = w := by
  rw [keys_bump]
  by_cases hw : w ∈ acc.map Prod.fst
  · rw [if_pos hw]
    constructor
    · exact Or.inl
    · rintro (h | rfl)
      · exact h
      · exact hw
  · rw [if_neg hw]
    simp

theorem lookupStr_foldl_bump (ws : List String) :
    ∀ (acc : List (String × Nat)) (k : String),
      lookupStr k (ws.foldl bump acc) =
        if (lookupStr k acc).isSome ∨ k ∈ ws
        then some ((lookupStr k acc).getD 0 + ws.count k) else none := by
  induction ws with
  | nil =>
    intro acc k
    cases h : lookupStr k acc with
    | none => simp [h]
    | some v => simp [h]
  | cons w ws ih =>
    intro acc k
    rw [List.foldl_cons, ih (bump acc w) k, lookupStr_bump]
    by_cases hk : k = w
    · subst hk
      rw [if_pos rfl]
      have hc : (k :: ws).count k = ws.count k + 1 := List.count_cons_self k ws
      simp only [Option.isSome_some, true_or, if_true, Option.getD_some]
      rw [if_pos (Or.inr (List.mem_cons_self k ws)), hc]
      congr 1
      omega
    · rw [if_neg hk]
      have hc : (w :: ws).count k = ws.count k := List.count_cons_of_ne hk ws
      have hm : (k ∈ w :: ws) ↔ k ∈ ws := by simp [hk]
      simp only [hc, hm]

theorem nodup_keys_foldl_bump (ws : List String) :
    ∀ acc : List (String × Nat), (acc.map Prod.fst).Nodup →
      ((ws.foldl bump acc).map Prod.fst).Nodup := by
  induction ws with
  | nil => intro acc h; simpa using h
  | cons w ws ih =>
    intro acc h
    exact ih (bump acc w) (nodup_keys_bump acc w h)

theorem lookupStr_of_mem_nodup {l : List (String × Nat)} {p : String × Nat}
    (hnd : (l.map Prod.fst).Nodup) (hp : p ∈ l) : lookupStr p.1 l = some p.2 := by
  induction l with
  | nil => simp at hp
  | cons q rest ih =>
    rcases List.mem_cons.mp hp with rfl | hp'
    · simp [lookupStr]
    · have hq : ¬ q.1 = p.1 := by
        intro hqp
        have : p.1 ∈ rest.map Prod.fst := List.mem_map.mpr ⟨p, hp', rfl⟩
        rw [List.map_cons, List.nodup_cons, hqp] at hnd
        exact hnd.1 this
      rw [lookupStr, if_neg hq]
      exact ih (by rw [List.map_cons, List.nodup_cons] at hnd; exact hnd.2) hp'

theorem mem_of_lookupStr {l : List (String × α)} {k : String} {v : α}
    (h : lookupStr k l = some v) : (k, v) ∈ l := by
  induction l with
  | nil => simp [lookupStr] at h
  | cons q rest ih =>
    obtain ⟨q1, q2⟩ := q
    simp only [lookupStr] at h
    by_cases hq : q1 = k
    · rw [if_pos hq, Option.some.injEq] at h
      subst hq
      subst h
      exact List.mem_cons_self _ _
    · rw [if_neg hq] at h
      exact List.mem_cons_of_mem _ (ih h)

theorem lookupStr_dictInsert (g : List (String × PRecord)) (k k' : String)
    (v : PRecord) :
    lookupStr k' (dictInsert g k v) = if k' = k then some v else lookupStr k' g := by
  induction g with
  | nil =>
    by_cases hk : k' = k
    · simp [dictInsert, lookupStr, hk]
    · have hkk : ¬ k = k' := fun h => hk h.symm
      simp [dictInsert, lookupStr, hk, hkk]
  | cons p rest ih =>
    by_cases hp : p.1 = k
    · rw [dictInsert, if_pos hp]
      by_cases hk : k' = k
      · subst hk
        simp [lookupStr]
      · have hpk : ¬ p.1 = k' := fun h => hk (h.symm.trans hp)
        have hkk : ¬ k = k' := fun h => hk h.symm
        simp [lookupStr, hk, hkk, if_neg hpk]
    · rw [dictInsert, if_neg hp]
      by_cases hpk : p.1 = k'
      · have hk : ¬ k' = k := fun h => hp (hpk.trans h)
        simp [lookupStr, hpk, hk]
      · simp [lookupStr, if_neg hpk, ih]

theorem lookupStr_add_formula_ne (acc : List (String × PRecord)) (f : Formula)
    (n : String) (hf : f.name ≠ some n) :
    lookupStr n (add_formula acc f) = lookupStr n acc := by
  cases hname : f.name with
  | none => simp [add_formula, hname]
  | some m =>
    simp only [add_formula, hname]
    by_cases hm : m = ""
    · rw [if_pos hm]
    · rw [if_neg hm, lookupStr_dictInsert,
        if_neg (fun h : n = m => hf (by rw [hname, h]))]

theorem lookupStr_foldl_add (fs : List Formula) :
    ∀ (acc : List (String × PRecord)) (n : String), n ≠ "" →
      lookupStr n (fs.foldl add_formula acc) =
        match (fs.filter (fun f => decide (f.name = some n))).getLast? with
        | some f => some (normalize_formula f)
        | none => lookupStr n acc := by
  induction fs with
  | nil =>
    intro acc n hn
    simp
  | cons f fs ih =>
    intro acc n hn
    rw [List.foldl_cons, ih (add_formula acc f) n hn]
    by_cases hf : f.name = some n
    · have hP : (decide (f.name = some n)) = true := by simp [hf]
      have hadd : add_formula acc f = dictInsert acc n (normalize_formula f) := by
        simp only [add_formula, hf]
        rw [if_neg hn]
      rw [List.filter_cons, hP, if_pos rfl]
      cases hfl : (fs.filter (fun f => decide (f.name = some n))) with
      | nil =>
        simp [hadd, lookupStr_dictInsert]
      | cons b bs =>
        rw [List.getLast?_cons_cons]
        cases hbl : (b :: bs).getLast? with
        | none => simp at hbl
        | some x => rfl
    · have hP : (decide (f.name = some n)) = false := by simp [hf]
      rw [List.filter_cons, hP]
      simp only [Bool.false_eq_true, if_false]
      rw [lookupStr_add_formula_ne acc f n hf]

theorem lookupStr_build (fs : List Formula) (n : String) (hn : n ≠ "") :
    lookupStr n (build_dependency_graph fs) =
      ((fs.filter (fun f => decide (f.name = some n))).getLast?).map
        normalize_formula := by
  rw [build_dependency_graph, lookupStr_foldl_add fs [] n hn]
  cases (fs.filter (fun f => decide (f.name = some n))).getLast? with
  | none => simp [lookupStr]
  | some f => simp

theorem lookupStr_build_empty (fs : List Formula) :
    lookupStr "" (build_dependency_graph fs) = none := by
  rw [build_dependency_graph]
  have : ∀ (fs : List Formula) (acc : List (String × PRecord)),
      lookupStr "" acc = none → lookupStr "" (fs.foldl add_formula acc) = none := by
    intro fs
    induction fs with
    | nil => intro acc h; simpa using h
    | cons f fs ih =>
      intro acc h
      rw [List.foldl_cons]
      apply ih
      cases hname : f.name with
      | none => simpa [add_formula, hname] using h
      | some m =>
        simp only [add_formula, hname]
        by_cases hm : m = ""
        · rw [if_pos hm]; exact h
        · rw [if_neg hm, lookupStr_dictInsert, if_neg (fun hh : "" = m => hm hh.symm)]
          exact h
  exact this fs [] rfl

theorem dep_count_eq (g : List (String × PRecord)) :
    dep_count g = (all_deps g).foldl bump [] := by
  rw [dep_count, all_deps, List.foldl_flatten, List.foldl_map]

theorem lookupStr_dep_count (g : List (String × PRecord)) (k : String) :
    lookupStr k (dep_count g) =
      if k ∈ all_deps g then some (depOcc g k) else none := by
  rw [dep_count_eq, lookupStr_foldl_bump]
  simp [lookupStr, depOcc]

theorem nodup_keys_dep_count (g : List (String × PRecord)) :
    ((dep_count g).map Prod.fst).Nodup := by
  rw [dep_count_eq]
  exact nodup_keys_foldl_bump (all_deps g) [] (by simp)

theorem mem_dep_count {g : List (String × PRecord)} {p : String × Nat}
    (hp : p ∈ dep_count g) : p.2 = depOcc g p.1 ∧ p.1 ∈ all_deps g := by
  have h := lookupStr_of_mem_nodup (nodup_keys_dep_count g) hp
  rw [lookupStr_dep_count] at h
  by_cases hm : p.1 ∈ all_deps g
  · rw [if_pos hm, Option.some.injEq] at h
    exact ⟨h.symm, hm⟩
  · rw [if_neg hm] at h
    exact absurd h (by simp)

theorem mem_dep_count_of_occ {g : List (String × PRecord)} {k : String}
    (h : k ∈ all_deps g) : (k, depOcc g k) ∈ dep_count g := by
  apply mem_of_lookupStr
  rw [lookupStr_dep_count, if_pos h]

theorem keysNotIn_nil (g : List (String × PRecord)) : keysNotIn g [] = g.length := by
  simp [keysNotIn]

theorem print_tree_eq_some (g : List (String × PRecord)) (r : String) (d : Int) :
    print_tree g r d = some (forwardTree g r d) := by
  obtain ⟨out, hout⟩ := Option.isSome_iff_exists.mp
    (travAux_isSome false g (g.length + 1) r [] d 0 true ""
      (by rw [keysNotIn_nil]; exact Nat.lt_succ_self _))
  rw [forwardTree, print_tree] at *
  rw [hout]
  rfl

theorem print_reverse_tree_eq_some (g : List (String × PRecord)) (r : String) (d : Int) :
    print_reverse_tree g r d = some (reverseTree g r d) := by
  obtain ⟨out, hout⟩ := Option.isSome_iff_exists.mp
    (travAux_isSome true g (g.length + 1) r [] d 0 true ""
      (by rw [keysNotIn_nil]; exact Nat.lt_succ_self _))
  rw [reverseTree, print_reverse_tree] at *
  rw [hout]
  rfl

theorem mem_forwardTree_facts {g : List (String × PRecord)} {r : String} {d : Int}
    {n : TNode} (hn : n ∈ forwardTree g r d) :
    (0 ≤ d → (n.depth : Int) < d) ∧
    ∃ fl : List Bool, fl.length = n.depth ∧ n.indent = indentBlocks fl := by
  have h := travAux_mem false g (g.length + 1) r [] d 0 true "" _ n
    (print_tree_eq_some g r d) hn
  exact ⟨h.2.1, h.2.2 [] rfl rfl⟩

theorem mem_reverseTree_facts {g : List (String × PRecord)} {r : String} {d : Int}
    {n : TNode} (hn : n ∈ reverseTree g r d) :
    (0 ≤ d → (n.depth : Int) < d) ∧
    ∃ fl : List Bool, fl.length = n.depth ∧ n.indent = indentBlocks fl := by
  have h := travAux_mem true g (g.length + 1) r [] d 0 true "" _ n
    (print_reverse_tree_eq_some g r d) hn
  exact ⟨h.2.1, h.2.2 [] rfl rfl⟩

/-- C1: forward traversal emits a `Circular` node exactly when the
current name is already among the ancestors on the current
root-to-node path (the path-scoped visited set): if the name is on the
path the call emits the single `Circular` node and stops the branch,
and if it is not the call emits a `Found` node first; convergent
sharing in G = {A:[B,C], B:[C], C:[]} yields two separate `Found` nodes
for C, while the cycle G = {A:[B], B:[A]} yields A Found (depth 0),
B Found (depth 1), A Circular (depth 2). -/
theorem claim_C1 :
    (∀ (rev : Bool) (g : List (String × PRecord)) (fuel : Nat) (pkg : String)
       (vis : List String) (d : Int) (depth : Nat) (last : Bool) (ind : String)
       (pd : PRecord), lookupStr pkg g = some pd →
       ¬ (0 ≤ d ∧ d ≤ (depth : Int)) →
       ((pkg ∈ vis →
          travAux rev g (fuel + 1) pkg vis d depth last ind =
            some [⟨pkg, pd.version, depth, last, NStatus.Circular,
                   (edgesOf rev pd).length, ind⟩]) ∧
        (pkg ∉ vis → ∀ out,
          travAux rev g (fuel + 1) pkg vis d depth last ind = some out →
          ∃ rest, out = ⟨pkg, pd.version, depth, last, NStatus.Found,
                         (edgesOf rev pd).length, ind⟩ :: rest))) ∧
    forwardTree gDiamond "A" (-1) =
      [⟨"A", "", 0, true, NStatus.Found, 2, ""⟩,
       ⟨"B", "", 1, false, NStatus.Found, 1, "    "⟩,
       ⟨"C", "", 2, true, NStatus.Found, 0, "    │   "⟩,
       ⟨"C", "", 1, true, NStatus.Found, 0, "    "⟩] ∧
    forwardTree gCycle "A" (-1) =
      [⟨"A", "", 0, true, NStatus.Found, 1, ""⟩,
       ⟨"B", "", 1, true, NStatus.Found, 1, "    "⟩,
       ⟨"A", "", 2, true, NStatus.Circular, 1, "        "⟩] := by
  refine ⟨?_, by decide, by decide⟩
  intro rev g fuel pkg vis d depth last ind pd hl hcut
  exact ⟨fun hv => travAux_circular rev g fuel pkg vis d depth last ind pd hl hcut hv,
         fun hv out h =>
           travAux_found_head rev g fuel pkg vis d depth last ind pd hl hcut hv out h⟩

theorem claim_C1_witness :
    travAux false gCycle 1 "A" ["B", "A"] (-1) 2 true "        " =
      some [⟨"A", "", 2, true, NStatus.Circular, 1, "        "⟩] :=
  (claim_C1.1 false gCycle 0 "A" ["B", "A"] (-1) 2 true "        "
    (recOf ["B"]) (by decide) (by decide)).1 (by decide)

/-- C2: for maxDepth ≥ 0 every emitted node (forward or reverse) has
depth < maxDepth; maxDepth = 0 emits nothing at all; any negative
maxDepth behaves exactly like -1 (unlimited). -/
theorem claim_C2 (g : List (String × PRecord)) (r : String) (d : Int) (n : TNode) :
    (0 ≤ d → n ∈ forwardTree g r d → (n.depth : Int) < d) ∧
    (0 ≤ d → n ∈ reverseTree g r d → (n.depth : Int) < d) ∧
    (forwardTree g r 0 = [] ∧ reverseTree g r 0 = []) ∧
    (d < 0 → forwardTree g r d = forwardTree g r (-1) ∧
             reverseTree g r d = reverseTree g r (-1)) := by
  refine ⟨fun h0 hn => (mem_forwardTree_facts hn).1 h0,
          fun h0 hn => (mem_reverseTree_facts hn).1 h0, ⟨?_, ?_⟩, fun hd => ⟨?_, ?_⟩⟩
  · refine List.eq_nil_iff_forall_not_mem.mpr (fun m hm => ?_)
    have := (mem_forwardTree_facts hm).1 le_rfl
    omega
  · refine List.eq_nil_iff_forall_not_mem.mpr (fun m hm => ?_)
    have := (mem_reverseTree_facts hm).1 le_rfl
    omega
  · rw [forwardTree, forwardTree, print_tree, print_tree,
      travAux_neg_eq false g (g.length + 1) r [] d (-1) hd (by norm_num) 0 true ""]
  · rw [reverseTree, reverseTree, print_reverse_tree, print_reverse_tree,
      travAux_neg_eq true g (g.length + 1) r [] d (-1) hd (by norm_num) 0 true ""]

theorem claim_C2_witness :
    (((⟨"A", "", 0, true, NStatus.Found, 2, ""⟩ : TNode).depth : Int) < 1) ∧
    forwardTree gDiamond "A" 0 = [] ∧
    forwardTree gDiamond "A" (-2) = forwardTree gDiamond "A" (-1) :=
  ⟨(claim_C2 gDiamond "A" 1 ⟨"A", "", 0, true, NStatus.Found, 2, ""⟩).1
      (by decide) (by decide),
   (claim_C2 gDiamond "A" 1 ⟨"A", "", 0, true, NStatus.Found, 2, ""⟩).2.2.1.1,
   ((claim_C2 gDiamond "A" (-2) ⟨"A", "", 0, true, NStatus.Found, 2, ""⟩).2.2.2
      (by norm_num)).1⟩

/-- C3: on every graph, root and depth bound the two traversals return
a value at fuel `graph.length + 1` (they terminate: the fuel never runs
out, even on cyclic graphs with unlimited depth), and every query
operation is a total function returning a value. -/
theorem claim_C3 (g : List (String × PRecord)) (r : String) (d : Int) :
    (print_tree g r d).isSome ∧ (print_reverse_tree g r d).isSome ∧
    (∃ v, find_root_packages g = v) ∧ (∃ v, find_leaf_packages g = v) ∧
    (∀ n : Nat, ∃ v, find_most_depended_on g n = v) ∧
    (∀ n : Nat, ∃ v, find_most_dependencies g n = v) ∧
    (∃ v, print_statistics g = v) := by
  refine ⟨?_, ?_, ⟨_, rfl⟩, ⟨_, rfl⟩, fun n => ⟨_, rfl⟩, fun n => ⟨_, rfl⟩, ⟨_, rfl⟩⟩
  · rw [print_tree_eq_some]; rfl
  · rw [print_reverse_tree_eq_some]; rfl

/-- C4: a name absent from the graph — the root itself or a dangling
dependency — makes the traversal emit exactly one `NotFound` node for
that name and stop that branch; on G = {A:[X]} the forward tree is
A Found then X NotFound at depth 1. -/
theorem claim_C4 :
    (∀ (rev : Bool) (g : List (String × PRecord)) (fuel : Nat) (pkg : String)
       (vis : List String) (d : Int) (depth : Nat) (last : Bool) (ind : String),
       lookupStr pkg g = none → ¬ (0 ≤ d ∧ d ≤ (depth : Int)) →
       travAux rev g (fuel + 1) pkg vis d depth last ind =
         some [⟨pkg, "", depth, last, NStatus.NotFound, 0, ind⟩]) ∧
    forwardTree gDangling "A" (-1) =
      [⟨"A", "", 0, true, NStatus.Found, 1, ""⟩,
       ⟨"X", "", 1, true, NStatus.NotFound, 0, "    "⟩] := by
  refine ⟨?_, by decide⟩
  intro rev g fuel pkg vis d depth last ind hl hcut
  exact travAux_notfound rev g fuel pkg vis d depth last ind hl hcut

theorem claim_C4_witness :
    travAux false gDangling 1 "X" ["A"] (-1) 1 true "    " =
      some [⟨"X", "", 1, true, NStatus.NotFound, 0, "    "⟩] :=
  claim_C4.1 false gDangling 0 "X" ["A"] (-1) 1 true "    " (by decide) (by decide)

/-- C5: the graph maps every non-empty name to the normalized record of
the *last* input entry bearing that name (last-write-wins, defaulted
fields), entries with a missing or empty name contribute no key (the
empty-string key is never present, and a name no entry bears is
absent), and missing fields default to the empty list / empty string. -/
theorem claim_C5 :
    (∀ (fs : List Formula) (n : String), n ≠ "" →
       lookupStr n (build_dependency_graph fs) =
         ((fs.filter (fun f => decide (f.name = some n))).getLast?).map
           normalize_formula) ∧
    (∀ fs : List Formula, lookupStr "" (build_dependency_graph fs) = none) ∧
    (∀ f : Formula, f.dependencies = none → (normalize_formula f).dependencies = []) ∧
    (∀ f : Formula, f.required_by = none → (normalize_formula f).required_by = []) ∧
    (∀ f : Formula, f.description = none → (normalize_formula f).description = "") ∧
    (∀ f : Formula, f.version = none → (normalize_formula f).version = "") := by
  refine ⟨lookupStr_build, lookupStr_build_empty, ?_, ?_, ?_, ?_⟩ <;>
    (intro f h; simp [normalize_formula, h])

theorem claim_C5_witness :
    lookupStr "A" (build_dependency_graph
        [⟨some "A", some ["X"], none, none, some "1"⟩,
         ⟨some "", some ["Y"], none, none, none⟩,
         ⟨none, some ["Z"], none, none, none⟩,
         ⟨some "A", none, none, none, some "2"⟩]) =
      some ⟨[], [], "", "2"⟩ ∧
    (normalize_formula ⟨some "A", none, none, none, none⟩).dependencies = [] :=
  ⟨(claim_C5.1
      [⟨some "A", some ["X"], none, none, some "1"⟩,
       ⟨some "", some ["Y"], none, none, none⟩,
       ⟨none, some ["Z"], none, none, none⟩,
       ⟨some "A", none, none, none, some "2"⟩] "A" (by decide)).trans (by decide),
   claim_C5.2.2.1 ⟨some "A", none, none, none, none⟩ rfl⟩

/-- C6: the top-N most-depended-on list is descending in count (the raw
occurrence count over all dependencies lists, duplicates included),
every returned pair carries exactly that occurrence count, every name
left out has a count no larger than any returned one, equal counts keep
their first-encounter order from the counting pass, and N = 0 yields
the empty sequence. -/
theorem claim_C6 (g : List (String × PRecord)) (n : Nat) :
    find_most_depended_on g 0 = [] ∧
    List.Pairwise countGE (find_most_depended_on g n) ∧
    (∀ p ∈ find_most_depended_on g n, p.2 = depOcc g p.1) ∧
    (∀ p ∈ find_most_depended_on g n, ∀ k : String,
       k ∉ (find_most_depended_on g n).map Prod.fst → depOcc g k ≤ p.2) ∧
    (∀ c : Nat, ((find_most_depended_on g n).filter (fun p => decide (p.2 = c))).Sublist
       ((dep_count g).filter (fun p => decide (p.2 = c)))) := by
  have htot : ∀ a b : String × Nat, countGE a b ∨ countGE b a :=
    fun a b => (Nat.le_total b.2 a.2).imp id id
  have htrans : ∀ a b c : String × Nat, countGE a b → countGE b c → countGE a c :=
    fun a b c hab hbc => le_trans hbc hab
  have hpw : List.Pairwise countGE (sortOrd countGE (dep_count g)) :=
    pairwise_sortOrd countGE htot htrans (dep_count g)
  refine ⟨by simp [find_most_depended_on], ?_, ?_, ?_, ?_⟩
  · exact hpw.sublist (List.take_sublist n _)
  · intro p hp
    have hp' : p ∈ dep_count g :=
      (mem_sortOrd countGE p (dep_count g)).mp (List.mem_of_mem_take hp)
    exact (mem_dep_count hp').1
  · intro p hp k hk
    by_cases hocc : k ∈ all_deps g
    · have hq : (k, depOcc g k) ∈ sortOrd countGE (dep_count g) :=
        (mem_sortOrd countGE _ (dep_count g)).mpr (mem_dep_count_of_occ hocc)
      rw [← List.take_append_drop n (sortOrd countGE (dep_count g))] at hq hpw
      rcases List.mem_append.mp hq with hq' | hq'
      · exact absurd (List.mem_map.mpr ⟨(k, depOcc g k), hq', rfl⟩) hk
      · exact (List.pairwise_append.mp hpw).2.2 p hp (k, depOcc g k) hq'
    · have : depOcc g k = 0 := by
        rw [depOcc, List.count_eq_zero]
        exact hocc
      rw [this]
      exact Nat.zero_le _
  · intro c
    have h1 : ((find_most_depended_on g n).filter (fun p => decide (p.2 = c))).Sublist
        ((sortOrd countGE (dep_count g)).filter (fun p => decide (p.2 = c))) :=
      (List.take_sublist n _).filter _
    have h2 : ((sortOrd countGE (dep_count g)).filter (fun p => decide (p.2 = c))) =
        ((dep_count g).filter (fun p => decide (p.2 = c))) := by
      apply filter_sortOrd
      intro x y hx hy
      rw [decide_eq_true_eq] at hx hy
      rw [countGE, hy, hx]
    rw [← h2]
    exact h1

theorem claim_C6_witness : depOcc gDiamond "B" ≤ 2 :=
  (claim_C6 gDiamond 1).2.2.2.1 ("C", 2) (by decide) "B" (by decide)

/-- C7: `find_root_packages` is exactly the lexicographically sorted
list of graph keys appearing in no record's dependencies list, and
`find_leaf_packages` exactly the sorted list of keys whose own
dependencies list is empty — stated as sortedness plus permutation with
the respective filtered key list plus a membership characterization —
and on G = {A:[], B:[A]} the roots are ["B"] and the leaves ["A"]. -/
theorem claim_C7 (g : List (String × PRecord)) (x : String) :
    List.Pairwise (fun a b : String => a ≤ b) (find_root_packages g) ∧
    List.Pairwise (fun a b : String => a ≤ b) (find_leaf_packages g) ∧
    (find_root_packages g).Perm
      ((g.map Prod.fst).filter (fun k => ¬ k ∈ all_deps g)) ∧
    (find_leaf_packages g).Perm
      ((g.filter (fun p => p.2.dependencies = [])).map Prod.fst) ∧
    (x ∈ find_root_packages g ↔ x ∈ g.map Prod.fst ∧ x ∉ all_deps g) ∧
    (x ∈ find_leaf_packages g ↔ ∃ q ∈ g, q.2.dependencies = [] ∧ q.1 = x) ∧
    find_root_packages gRL = ["B"] ∧ find_leaf_packages gRL = ["A"] := by
  have htot : ∀ a b : String, a ≤ b ∨ b ≤ a := le_total
  have htrans : ∀ a b c : String, a ≤ b → b ≤ c → a ≤ c := fun a b c => le_trans
  refine ⟨pairwise_sortOrd _ htot htrans _, pairwise_sortOrd _ htot htrans _,
    perm_sortOrd _ _, perm_sortOrd _ _, ?_, ?_, by decide, by decide⟩
  · rw [find_root_packages, mem_sortOrd, List.mem_filter]
    simp
  · rw [find_leaf_packages, mem_sortOrd]
    constructor
    · intro hx
      obtain ⟨q, hq, rfl⟩ := List.mem_map.mp hx
      have := List.mem_filter.mp hq
      exact ⟨q, this.1, by simpa using this.2, rfl⟩
    · rintro ⟨q, hq, hdep, rfl⟩
      exact List.mem_map.mpr ⟨q, List.mem_filter.mpr ⟨hq, by simpa using hdep⟩, rfl⟩

/-- C8: the statistics report the key count as `total`, the summed
dependency-list lengths as `edges`, `avg = 0` on the empty graph (no
division by zero), and otherwise exactly `avg = edges / total` (so
`avg * total = edges` over ℚ). -/
theorem claim_C8 (g : List (String × PRecord)) :
    (print_statistics g).total = g.length ∧
    (print_statistics g).edges = (g.map (fun p => p.2.dependencies.length)).sum ∧
    (g = [] → (print_statistics g).avg = 0) ∧
    (g ≠ [] →
      (print_statistics g).avg =
        ((print_statistics g).edges : ℚ) / ((print_statistics g).total : ℚ) ∧
      (print_statistics g).avg * ((print_statistics g).total : ℚ) =
        ((print_statistics g).edges : ℚ)) := by
  refine ⟨rfl, rfl, ?_, ?_⟩
  · rintro rfl
    simp [print_statistics]
  · intro hne
    have hpos : 0 < g.length := List.length_pos.mpr hne
    have havg : (print_statistics g).avg =
        ((print_statistics g).edges : ℚ) / ((print_statistics g).total : ℚ) := by
      simp only [print_statistics, if_pos hpos]
    refine ⟨havg, ?_⟩
    rw [havg]
    have hcast : ((print_statistics g).total : ℚ) ≠ 0 := by
      simp only [print_statistics]
      exact_mod_cast Nat.pos_iff_ne_zero.mp hpos
    exact div_mul_cancel₀ _ hcast

theorem claim_C8_witness :
    (print_statistics ([] : List (String × PRecord))).avg = 0 ∧
    (print_statistics gDiamond).avg * ((print_statistics gDiamond).total : ℚ) =
      ((print_statistics gDiamond).edges : ℚ) :=
  ⟨(claim_C8 []).2.2.1 rfl, ((claim_C8 gDiamond).2.2.2 (by decide)).2⟩

/-- C9 counterexample: on G = {A : deps[]} the forward tree renders the
single Found line "└── A" with *no* count annotation, contradicting the
claim that every Found node's line carries the "[N deps]" annotation
(which would demand "└── A [0 deps]"). -/
theorem claim_C9_counterexample :
    (forwardTree gLeaf "A" (-1)).map (render false false) = ["└── A"] ∧
    "└── A" ≠ "└── A [0 deps]" := ⟨by decide, by decide⟩

/-- C9 (amended): each traversal node yields exactly one line made of
indentation built from the ancestor isLast flags ("    " for a last
ancestor level, "│   " for a non-last one), a connector by the node's
own isLast flag, the name, an optional version suffix, and the
status/count annotation — where the count annotation "[N deps]" /
"[required by N]" appears only for Found nodes with a positive edge
count (zero-edge Found nodes get no annotation). -/
theorem claim_C9 (g : List (String × PRecord)) (r : String) (d : Int)
    (rev showV : Bool) (n : TNode) :
    (n ∈ forwardTree g r d ∨ n ∈ reverseTree g r d →
       ∃ fl : List Bool, fl.length = n.depth ∧ n.indent = indentBlocks fl) ∧
    render rev showV n =
      n.indent ++ (if n.isLast then "└── " else "├── ") ++ n.name ++
      (if showV ∧ n.version ≠ "" then " (" ++ n.version ++ ")" else "") ++
      (match n.status with
       | NStatus.NotFound => " (not found)"
       | NStatus.Circular => " (circular)"
       | NStatus.Found =>
         if 0 < n.childCount then
           (if rev then " [required by " ++ toString n.childCount ++ "]"
            else " [" ++ toString n.childCount ++ " deps]")
         else "") ∧
    (forwardTree gDiamond "A" (-1)).map (render false false) =
      ["└── A [2 deps]", "    ├── B [1 deps]", "    │   └── C", "    └── C"] := by
  refine ⟨?_, rfl, by decide⟩
  rintro (hn | hn)
  · exact (mem_forwardTree_facts hn).2
  · exact (mem_reverseTree_facts hn).2

theorem claim_C9_witness :
    ∃ fl : List Bool, fl.length = 1 ∧ "    " = indentBlocks fl :=
  (claim_C9 gDiamond "A" (-1) false false
    ⟨"B", "", 1, false, NStatus.Found, 1, "    "⟩).1 (Or.inl (by decide))

/-- C10: dangling dependency names take part in the most-depended-on
ranking exactly like real packages — on G = {A : deps[X]} the ranking
returns ("X", 1) although X is not a graph key — whereas root and leaf
queries only ever return graph keys. -/
theorem claim_C10 :
    find_most_depended_on gDangling 10 = [("X", 1)] ∧
    "X" ∉ gDangling.map Prod.fst ∧
    (∀ (g : List (String × PRecord)) (x : String),
       x ∈ find_root_packages g → x ∈ g.map Prod.fst) ∧
    (∀ (g : List (String × PRecord)) (x : String),
       x ∈ find_leaf_packages g → x ∈ g.map Prod.fst) := by
  refine ⟨by decide, by decide, ?_, ?_⟩
  · intro g x hx
    rw [find_root_packages, mem_sortOrd] at hx
    exact (List.mem_filter.mp hx).1
  · intro g x hx
    rw [find_leaf_packages, mem_sortOrd] at hx
    obtain ⟨q, hq, rfl⟩ := List.mem_map.mp hx
    exact List.mem_map.mpr ⟨q, List.mem_of_mem_filter hq, rfl⟩

theorem claim_C10_witness : "B" ∈ gRL.map Prod.fst :=
  claim_C10.2.2.1 gRL "B" (by decide)

end BrewDeps
